import Mathlib

/-!
Verification of the transcript-summarization tool
(`src/summarization/01-summarization.ipynb`) against its specification.

Text is modelled as `List Char` (Python `str`).  Each Lean definition below
embeds the Python function of the same (or closely corresponding) name from
the notebook.  Machine integers do not overflow in any relevant range, so all
arithmetic is on `Nat` / `Int`.
-/

namespace Summarize

/-- Python whitespace characters recognised by `str.strip()` and the regex
class `\s` (ASCII subset; the claims do not involve exotic Unicode spaces). -/
def isPySpace (c : Char) : Bool :=
  c == ' ' || c == '\t' || c == '\n' || c == '\r' || c == '\x0b' || c == '\x0c'

/-- Python `text.split(sep)` for a one-character separator: always returns a
non-empty list of separator-free pieces; `"".split(sep) == [""]`. -/
def splitOnChar (sep : Char) : List Char → List (List Char)
  | [] => [[]]
  | c :: cs =>
    if c = sep then
      [] :: splitOnChar sep cs
    else
      match splitOnChar sep cs with
      | [] => [[c]]
      | l :: ls => (c :: l) :: ls

/-- Python `"\n".join(lines)`. -/
def joinNl : List (List Char) → List Char
  | [] => []
  | [l] => l
  | l :: ls => l ++ '\n' :: joinNl ls

/-- Drop leading characters satisfying `p` (one `while`-loop of the source). -/
def dropLead (p : Char → Bool) (l : List Char) : List Char :=
  l.dropWhile p

/-- Drop trailing characters satisfying `p` (the second `while`-loop). -/
def dropTrail (p : Char → Bool) (l : List Char) : List Char :=
  (l.reverse.dropWhile p).reverse

/-- Trim both edges: first the leading loop, then the trailing loop,
exactly in the order the source runs them. -/
def edgeTrim (p : Char → Bool) (l : List Char) : List Char :=
  dropTrail p (dropLead p l)

/-- Python `line.strip()` (whitespace on both ends). -/
def pyStrip (l : List Char) : List Char :=
  edgeTrim isPySpace l

/-- The blank-edge trim of `sort_by_topic` / `process_summary`:
`while s.startswith("\n"): s = s[1:]` then `while s.endswith("\n"): s = s[:-1]`. -/
def trimNewlines (l : List Char) : List Char :=
  edgeTrim (fun c => c == '\n') l

/-- Python `line.startswith("-")`. -/
def startsWithDash : List Char → Bool
  | '-' :: _ => true
  | _ => false

/-- `if line.startswith("-") or line:` — the keep-condition of the bullet
filter, evaluated on the already-stripped line. -/
def keepLine (l : List Char) : Bool :=
  startsWithDash l || !l.isEmpty

/-- The bullet filter of `process_sections`: split the model answer into
lines, strip each line, keep it when it starts with `-` or is non-empty,
re-join with newlines. -/
def bulletFilter (t : List Char) : List Char :=
  joinNl (((splitOnChar '\n' t).map pyStrip).filter keepLine)

/-- `s.startswith("\n")` as a boolean on the character list. -/
def startsNl : List Char → Bool
  | [] => false
  | c :: _ => c == '\n'

/-- `s.endswith("\n")` as a boolean on the character list. -/
def endsNl (l : List Char) : Bool :=
  startsNl l.reverse

/-! ### Regex substitutions of `clean_input_text`

Each `re.sub(pat, '', text)` is embedded as a left-to-right scan that, at each
position, either consumes a match of `pat` (deleting it) or keeps one
character and moves on — exactly the leftmost, non-overlapping semantics of
`re.sub`.  The scans are written with a fuel argument equal to the input
length: every step consumes at least one input character while spending one
unit of fuel, so the fuel never runs out before the input does. -/

/-- Match a fixed-shape pattern: one boolean test per character.  Returns the
remainder of the input after the match. -/
def matchPat : List (Char → Bool) → List Char → Option (List Char)
  | [], l => some l
  | _ :: _, [] => none
  | p :: ps, c :: cs => if p c then matchPat ps cs else none

/-- The timestamp-line pattern
`\d{2}:\d{2}:\d{2}.\d{3} --> \d{2}:\d{2}:\d{2}.\d{3}\n` (the unescaped `.`
matches any character except a newline). -/
def tsPat : List (Char → Bool) :=
  let d := Char.isDigit
  let co := fun c => c == ':'
  let dot := fun c => c != '\n'
  [d, d, co, d, d, co, d, d, dot, d, d, d,
   (fun c => c == ' '), (fun c => c == '-'), (fun c => c == '-'),
   (fun c => c == '>'), (fun c => c == ' '),
   d, d, co, d, d, co, d, d, dot, d, d, d,
   (fun c => c == '\n')]

/-- The literal pattern `</v>`. -/
def closeVPat : List (Char → Bool) :=
  [fun c => c == '<', fun c => c == '/', fun c => c == 'v', fun c => c == '>']

/-- Scan the tail of a `<v ` opener up to the closing `>`
(the `[^>]+>` part of the pattern, already past its first character). -/
def vtagClose : List Char → Option (List Char)
  | [] => none
  | c :: cs => if c = '>' then some cs else vtagClose cs

/-- Match the pattern `<v [^>]+>` at the head of the input. -/
def matchVTag : List Char → Option (List Char)
  | '<' :: 'v' :: ' ' :: c :: cs => if c = '>' then none else vtagClose cs
  | _ => none

/-- Fueled scanner deleting every match of `m` (`re.sub(pat, '', text)` for a
matcher that always consumes at least one character). -/
def subDel (m : List Char → Option (List Char)) : Nat → List Char → List Char
  | 0, l => l
  | _ + 1, [] => []
  | fuel + 1, c :: cs =>
    match m (c :: cs) with
    | some rest => subDel m fuel rest
    | none => c :: subDel m fuel cs

/-- Run a deleting substitution over the whole input. -/
def runSubDel (m : List Char → Option (List Char)) (l : List Char) : List Char :=
  subDel m l.length l

/-- `re.sub(r'\s+', ' ', text)`: replace every maximal whitespace run by a
single space (leading and trailing runs included — no trimming); fueled. -/
def collapseWsAux : Nat → List Char → List Char
  | 0, l => l
  | _ + 1, [] => []
  | fuel + 1, c :: cs =>
    if isPySpace c then ' ' :: collapseWsAux fuel (cs.dropWhile isPySpace)
    else c :: collapseWsAux fuel cs

/-- Run the whitespace-collapsing substitution over the whole input
(each step consumes at least one character, so `l.length` fuel suffices). -/
def collapseWs (l : List Char) : List Char :=
  collapseWsAux l.length l

/-- `clean_input_text`: remove timestamp lines, drop blank lines, strip
`<v ...>` and `</v>` tags, collapse whitespace runs to single spaces. -/
def clean_input_text (text : List Char) : List Char :=
  let t1 := runSubDel (matchPat tsPat) text
  let t2 := joinNl ((splitOnChar '\n' t1).filter fun line => !(pyStrip line).isEmpty)
  let t3 := runSubDel matchVTag t2
  let t4 := runSubDel (matchPat closeVPat) t3
  collapseWs t4

/-! ### Jargon replacement -/

/-- Error raised by `replace_jargon` when a line does not split into exactly
two comma-separated fields (`ValueError: Incorrect format in jargon.txt ...`). -/
inductive JargonError
  | malformed
  deriving DecidableEq

/-- Rebuild the line list of Python `f.readlines()` from the pieces of a
split on `'\n'`: every piece but the last is a newline-terminated line; the
last piece is a line only when non-empty. -/
def relines : List (List Char) → List (List Char)
  | [] => []
  | [l] => if l.isEmpty then [] else [l]
  | l :: ls => (l ++ ['\n']) :: relines ls

/-- Python `f.readlines()` on a file whose content is `content`. -/
def readlines (content : List Char) : List (List Char) :=
  relines (splitOnChar '\n' content)

/-- Python `text.replace(pat, repl)` for a non-empty `pat` (fueled scan:
every step consumes at least one input character). -/
def replaceAllAux (pat repl : List Char) : Nat → List Char → List Char
  | 0, l => l
  | _ + 1, [] => []
  | fuel + 1, c :: cs =>
    if pat.isPrefixOf (c :: cs) then
      repl ++ replaceAllAux pat repl fuel ((c :: cs).drop pat.length)
    else
      c :: replaceAllAux pat repl fuel cs

/-- `text.replace(pat, repl)`. -/
def replaceAll (pat repl l : List Char) : List Char :=
  replaceAllAux pat repl l.length l

/-- Apply one validated `(jargon, replacement)` pair. -/
def applyPair (t : List Char) (p : List (List Char)) : List Char :=
  match p with
  | [a, b] => replaceAll a b t
  | _ => t

/-- `replace_jargon` for an existing jargon file with content `content`:
split every stripped line on `','`, raise `ValueError` unless every line
yields exactly two fields, otherwise apply each replacement in file order. -/
def replace_jargon (content text : List Char) : Except JargonError (List Char) :=
  let jargon_pairs := (readlines content).map fun line => splitOnChar ',' (pyStrip line)
  if jargon_pairs.all (fun p => p.length == 2) then
    .ok (jargon_pairs.foldl applyPair text)
  else
    .error .malformed

/-! ### Token-budget computation and windowing (`process_sections`) -/

/-- `SECTION_RESPONSE_MAX_TOKENS = 1024`. -/
def SECTION_RESPONSE_MAX_TOKENS : Nat := 1024

/-- `OVERLAP = 50`. -/
def OVERLAP : Nat := 50

/-- `section_length = 4000 - SECTION_RESPONSE_MAX_TOKENS -
len(section_prompt_tokens) - len(system_prompt_tokens)`, parameterized by the
two prompt token counts. -/
def section_length (promptTok sysTok : Nat) : Int :=
  4000 - SECTION_RESPONSE_MAX_TOKENS - promptTok - sysTok

/-- `topic_length = 4000 - len(full_notes_tokens) - len(topic_prompt_tokens) -
len(system_prompt_tokens)` in `sort_by_topic` (passed to the model as the
response-token cap). -/
def topic_length (notesTok promptTok sysTok : Nat) : Int :=
  4000 - notesTok - promptTok - sysTok

/-- `summary_length` in `process_summary` (same formula as `topic_length`). -/
def summary_length (notesTok promptTok sysTok : Nat) : Int :=
  4000 - notesTok - promptTok - sysTok

/-- Number of iterations of `for i in range(0, L, step)` for `step > 0`. -/
def numWindows (L step : Nat) : Nat :=
  (L + step - 1) / step

/-- The start offsets produced by `range(0, L, step)` for `step > 0`. -/
def windowStarts (L step : Nat) : List Nat :=
  (List.range (numWindows L step)).map (· * step)

/-- The windows emitted by
`for i in range(0, len(tokens), budget - overlap): tokens[i : i + budget]`
in the positive-step case. -/
def sectionWindowsPos (tokens : List Int) (budget overlap : Nat) : List (List Int) :=
  (windowStarts tokens.length (budget - overlap)).map fun i => (tokens.drop i).take budget

/-- `ValueError: range() arg 3 must not be zero`, the only error the
windowing loop itself can raise. -/
inductive WindowError
  | zeroStep
  deriving DecidableEq

/-- The windowing loop of `process_sections` over an already-tokenized text:
`range(0, L, step)` raises a `ValueError` when `step == 0`, is empty when
`step < 0`, and otherwise yields the token slices `tokens[i : i + budget]`. -/
def sectionWindows (tokens : List Int) (budget : Int) (overlap : Nat) :
    Except WindowError (List (List Int)) :=
  if budget - overlap = 0 then .error .zeroStep
  else if budget - overlap < 0 then .ok []
  else .ok (sectionWindowsPos tokens budget.toNat overlap)

/-! ### Output assembly (`main`) -/

/-- The literal separator of `combined_notes = f"{summary_notes}\n\nNotes:\n{sorted_notes}"`. -/
def NOTES_SEP : List Char := "\n\nNotes:\n".data

/-- The post-processing of `process_summary` applied to the raw model
response: the blank-edge trim. -/
def processSummaryPost (raw : List Char) : List Char :=
  trimNewlines raw

/-- The assembly step of `main`: with `-s`, summary text plus the literal
separator plus the sorted notes; without it, the sorted notes alone. -/
def assemble (generateSummary : Bool) (summaryNotes sortedNotes : List Char) : List Char :=
  if generateSummary then summaryNotes ++ NOTES_SEP ++ sortedNotes else sortedNotes

/-! ### Helper lemmas about `dropWhile`, `dropTrail` and `edgeTrim` -/

theorem dropWhile_dropWhile (p : Char → Bool) (l : List Char) :
    (l.dropWhile p).dropWhile p = l.dropWhile p := by
  induction l with
  | nil => rfl
  | cons c cs ih =>
    by_cases h : p c = true
    · simp [List.dropWhile, h, ih]
    · simp [List.dropWhile, h]

theorem head?_dropWhile_false (p : Char → Bool) (l : List Char) :
    ∀ a, (l.dropWhile p).head? = some a → p a = false := by
  induction l with
  | nil => intro a h; simp at h
  | cons c cs ih =>
    intro a h
    by_cases hc : p c = true
    · exact ih a (by simpa [List.dropWhile, hc] using h)
    · simp [List.dropWhile, hc] at h
      rw [← h]
      exact Bool.eq_false_iff.mpr hc

theorem dropWhile_eq_self_of_head? (p : Char → Bool) (l : List Char)
    (h : ∀ a, l.head? = some a → p a = false) : l.dropWhile p = l := by
  cases l with
  | nil => rfl
  | cons c cs => simp [List.dropWhile, h c rfl]

theorem mem_of_mem_dropWhile (p : Char → Bool) (l : List Char) (a : Char)
    (h : a ∈ l.dropWhile p) : a ∈ l := by
  induction l with
  | nil => simp at h
  | cons c cs ih =>
    by_cases hc : p c = true
    · exact List.mem_cons_of_mem _ (ih (by simpa [List.dropWhile, hc] using h))
    · simpa [List.dropWhile, hc] using h

theorem dropWhile_append_exists (p : Char → Bool) (l : List Char) :
    ∃ s, s ++ l.dropWhile p = l := by
  induction l with
  | nil => exact ⟨[], rfl⟩
  | cons c cs ih =>
    by_cases hc : p c = true
    · obtain ⟨s, hs⟩ := ih
      exact ⟨c :: s, by simp [List.dropWhile, hc, hs]⟩
    · exact ⟨[], by simp [List.dropWhile, hc]⟩

theorem dropTrail_prefix (p : Char → Bool) (l : List Char) :
    ∃ t, dropTrail p l ++ t = l := by
  obtain ⟨s, hs⟩ := dropWhile_append_exists p l.reverse
  refine ⟨s.reverse, ?_⟩
  have := congrArg List.reverse hs
  simpa [dropTrail, List.reverse_append] using this

theorem head?_dropTrail (p : Char → Bool) (l : List Char) :
    ∀ a, (dropTrail p l).head? = some a → l.head? = some a := by
  intro a h
  obtain ⟨t, ht⟩ := dropTrail_prefix p l
  cases hd : dropTrail p l with
  | nil => rw [hd] at h; simp at h
  | cons c cs =>
    rw [hd] at h ht
    simp at h
    rw [← ht, ← h]
    rfl

theorem reverse_dropTrail (p : Char → Bool) (l : List Char) :
    (dropTrail p l).reverse = l.reverse.dropWhile p := by
  simp [dropTrail]

theorem getLast?_dropTrail_false (p : Char → Bool) (l : List Char) :
    ∀ a, (dropTrail p l).getLast? = some a → p a = false := by
  intro a h
  have h2 : (dropTrail p l).reverse.head? = some a := by
    rwa [List.head?_reverse]
  rw [reverse_dropTrail] at h2
  exact head?_dropWhile_false p l.reverse a h2

theorem dropTrail_dropTrail (p : Char → Bool) (l : List Char) :
    dropTrail p (dropTrail p l) = dropTrail p l := by
  have : dropTrail p (dropTrail p l) = ((dropTrail p l).reverse.dropWhile p).reverse := rfl
  rw [this, reverse_dropTrail, dropWhile_dropWhile, ← reverse_dropTrail, List.reverse_reverse]

theorem mem_of_mem_dropTrail (p : Char → Bool) (l : List Char) (a : Char)
    (h : a ∈ dropTrail p l) : a ∈ l := by
  rw [dropTrail, List.mem_reverse] at h
  exact List.mem_reverse.mp (mem_of_mem_dropWhile p l.reverse a h)

theorem edgeTrim_head?_false (p : Char → Bool) (l : List Char) :
    ∀ a, (edgeTrim p l).head? = some a → p a = false := by
  intro a h
  exact head?_dropWhile_false p l a (head?_dropTrail p (dropLead p l) a h)

theorem edgeTrim_getLast?_false (p : Char → Bool) (l : List Char) :
    ∀ a, (edgeTrim p l).getLast? = some a → p a = false :=
  getLast?_dropTrail_false p (dropLead p l)

theorem dropLead_edgeTrim (p : Char → Bool) (l : List Char) :
    dropLead p (edgeTrim p l) = edgeTrim p l :=
  dropWhile_eq_self_of_head? p _ (edgeTrim_head?_false p l)

theorem edgeTrim_idem (p : Char → Bool) (l : List Char) :
    edgeTrim p (edgeTrim p l) = edgeTrim p l := by
  show dropTrail p (dropLead p (edgeTrim p l)) = edgeTrim p l
  rw [dropLead_edgeTrim]
  show dropTrail p (dropTrail p (dropLead p l)) = edgeTrim p l
  rw [dropTrail_dropTrail]
  rfl

theorem mem_of_mem_edgeTrim (p : Char → Bool) (l : List Char) (a : Char)
    (h : a ∈ edgeTrim p l) : a ∈ l :=
  mem_of_mem_dropWhile p l a (mem_of_mem_dropTrail p (dropLead p l) a h)

/-! ### Helper lemmas about `splitOnChar` and `joinNl` -/

theorem splitOnChar_ne_nil (sep : Char) (t : List Char) : splitOnChar sep t ≠ [] := by
  cases t with
  | nil => simp [splitOnChar]
  | cons c cs =>
    by_cases h : c = sep
    · simp [splitOnChar, h]
    · simp only [splitOnChar, if_neg h]
      cases splitOnChar sep cs <;> simp

theorem splitOnChar_cons_of_eq (sep : Char) (cs : List Char) :
    splitOnChar sep (sep :: cs) = [] :: splitOnChar sep cs := by
  simp [splitOnChar]

theorem splitOnChar_cons_of_ne (sep c : Char) (cs : List Char) (hc : ¬c = sep)
    (l : List Char) (ls : List (List Char)) (h : splitOnChar sep cs = l :: ls) :
    splitOnChar sep (c :: cs) = (c :: l) :: ls := by
  simp only [splitOnChar, if_neg hc, h]

theorem not_mem_of_mem_splitOnChar (sep : Char) (t : List Char) :
    ∀ piece ∈ splitOnChar sep t, sep ∉ piece := by
  induction t with
  | nil =>
    intro piece h
    have : piece = [] := by simpa [splitOnChar] using h
    simp [this]
  | cons c cs ih =>
    intro piece h
    by_cases hc : c = sep
    · subst hc
      rw [splitOnChar_cons_of_eq] at h
      rcases List.mem_cons.mp h with h1 | h1
      · simp [h1]
      · exact ih piece h1
    · cases hs : splitOnChar sep cs with
      | nil => exact absurd hs (splitOnChar_ne_nil sep cs)
      | cons l ls =>
        rw [splitOnChar_cons_of_ne sep c cs hc l ls hs] at h
        rcases List.mem_cons.mp h with h1 | h1
        · intro hmem
          rw [h1] at hmem
          rcases List.mem_cons.mp hmem with h2 | h2
          · exact hc h2.symm
          · exact ih l (by rw [hs]; exact List.mem_cons_self l ls) h2
        · exact ih piece (by rw [hs]; exact List.mem_cons_of_mem l h1)

theorem splitOnChar_of_not_mem (sep : Char) (l : List Char) (h : sep ∉ l) :
    splitOnChar sep l = [l] := by
  induction l with
  | nil => rfl
  | cons c cs ih =>
    have hc : ¬c = sep := fun hcc => h (by simp [hcc])
    have hcs : sep ∉ cs := fun hm => h (List.mem_cons_of_mem c hm)
    exact splitOnChar_cons_of_ne sep c cs hc cs [] (ih hcs)

theorem splitOnChar_append (sep : Char) (l r : List Char) (h : sep ∉ l) :
    splitOnChar sep (l ++ sep :: r) = l :: splitOnChar sep r := by
  induction l with
  | nil => simpa using splitOnChar_cons_of_eq sep r
  | cons c cs ih =>
    have hc : ¬c = sep := fun hcc => h (by simp [hcc])
    have hcs : sep ∉ cs := fun hm => h (List.mem_cons_of_mem c hm)
    rw [List.cons_append]
    exact splitOnChar_cons_of_ne sep c (cs ++ sep :: r) hc cs (splitOnChar sep r) (ih hcs)

theorem splitOnChar_joinNl (ls : List (List Char)) (hne : ls ≠ [])
    (h : ∀ l ∈ ls, '\n' ∉ l) : splitOnChar '\n' (joinNl ls) = ls := by
  induction ls with
  | nil => exact absurd rfl hne
  | cons l ls ih =>
    cases ls with
    | nil =>
      show splitOnChar '\n' l = [l]
      exact splitOnChar_of_not_mem '\n' l (h l (List.mem_cons_self l []))
    | cons l2 ls2 =>
      show splitOnChar '\n' (l ++ '\n' :: joinNl (l2 :: ls2)) = l :: (l2 :: ls2)
      rw [splitOnChar_append '\n' l _ (h l (List.mem_cons_self _ _))]
      rw [ih (by simp) (fun x hx => h x (List.mem_cons_of_mem l hx))]

theorem map_eq_self_of_mem {α : Type} (f : α → α) (l : List α)
    (h : ∀ a ∈ l, f a = a) : l.map f = l := by
  induction l with
  | nil => rfl
  | cons c cs ih =>
    simp only [List.map_cons, h c (List.mem_cons_self c cs),
      ih fun a ha => h a (List.mem_cons_of_mem c ha)]

/-! ### Helper lemmas about the windowing arithmetic -/

theorem numWindows_eq (L step : Nat) (hL : 0 < L) (hs : 0 < step) :
    numWindows L step = (L - 1) / step + 1 := by
  unfold numWindows
  have h1 : L + step - 1 = (L - 1) + step := by omega
  rw [h1, Nat.add_div_right _ hs]

theorem numWindows_zero (step : Nat) (hs : 0 < step) : numWindows 0 step = 0 := by
  unfold numWindows
  exact Nat.div_eq_of_lt (by omega)

theorem windowStarts_lt (L step : Nat) (hL : 0 < L) (hs : 0 < step) :
    ∀ s ∈ windowStarts L step, s < L := by
  intro s hsmem
  obtain ⟨i, hi, rfl⟩ := List.mem_map.mp hsmem
  have hin : i < numWindows L step := List.mem_range.mp hi
  rw [numWindows_eq L step hL hs] at hin
  have hile : i ≤ (L - 1) / step := by omega
  have h1 : i * step ≤ (L - 1) / step * step := Nat.mul_le_mul_right step hile
  have h2 : (L - 1) / step * step ≤ L - 1 := Nat.div_mul_le_self _ _
  omega

theorem lt_div_succ_mul (a b : Nat) (hb : 0 < b) : a < (a / b + 1) * b := by
  have h1 := Nat.div_add_mod a b
  have h2 := Nat.mod_lt a hb
  calc a = b * (a / b) + a % b := h1.symm
    _ < b * (a / b) + b := Nat.add_lt_add_left h2 _
    _ = a / b * b + b := by rw [Nat.mul_comm]
    _ = (a / b + 1) * b := by rw [Nat.add_mul, Nat.one_mul]

theorem last_window_end (L step b : Nat) (hL : 0 < L) (hs : 0 < step) (hsb : step ≤ b) :
    L ≤ (numWindows L step - 1) * step + b := by
  rw [numWindows_eq L step hL hs]
  simp only [Nat.add_sub_cancel]
  have h3 : L - 1 < ((L - 1) / step + 1) * step := lt_div_succ_mul _ _ hs
  have h4 : ((L - 1) / step + 1) * step = (L - 1) / step * step + step := by
    rw [Nat.add_mul, Nat.one_mul]
  omega

theorem sectionWindowsPos_length (tokens : List Int) (b o : Nat) :
    (sectionWindowsPos tokens b o).length = numWindows tokens.length (b - o) := by
  simp [sectionWindowsPos, windowStarts]

theorem sectionWindowsPos_get (tokens : List Int) (b o j : Nat)
    (hj : j < (sectionWindowsPos tokens b o).length) :
    (sectionWindowsPos tokens b o).get ⟨j, hj⟩ = (tokens.drop (j * (b - o))).take b := by
  rw [List.get_eq_getElem]
  simp [sectionWindowsPos, windowStarts]

/-! ### The claims -/

/-- C1 (counterexample): with wrapper-prompt overhead of 3000 tokens the
computed section budget `4000 - 1024 - 3000 - 0 = -24` is non-positive, yet
`process_sections` raises no `BudgetExhaustedError`: the windowing loop
simply runs zero iterations and the stage proceeds with an empty result. -/
theorem budget_nonpositive_proceeds_cex :
    section_length 3000 0 ≤ 0 ∧
      sectionWindows [7] (section_length 3000 0) OVERLAP = .ok [] :=
  ⟨by decide, rfl⟩

/-- C1 (amended): no stage checks the computed content-token budget.  When
`section_length = 4000 - 1024 - overhead` is ≤ 0, section extraction
proceeds without raising any error and emits zero windows (the `range` step
`section_length - OVERLAP` is negative); nothing guarantees a value ≥ 1. -/
theorem section_budget_no_error_when_nonpositive (tokens : List Int) (p s : Nat)
    (h : section_length p s ≤ 0) :
    sectionWindows tokens (section_length p s) OVERLAP = .ok [] := by
  have h50 : (OVERLAP : Nat) = 50 := rfl
  have hlt : section_length p s - (OVERLAP : Nat) < 0 := by omega
  unfold sectionWindows
  rw [if_neg (by omega), if_pos hlt]

/-- Witness for C1's amended theorem at overhead `5000 + 1`. -/
theorem section_budget_no_error_witness :
    section_length 5000 1 ≤ 0 ∧
      sectionWindows [3, 4] (section_length 5000 1) OVERLAP = .ok [] :=
  ⟨by decide, section_budget_no_error_when_nonpositive [3, 4] 5000 1 (by decide)⟩

/-- A 100-token sequence used as a concrete windowing counterexample. -/
def tsEx : List Int :=
  (List.range 100).map Int.ofNat

/-- C2 (counterexample): for 100 tokens, budget 90, overlap 50, the loop
emits three windows `[0,90)`, `[40,100)`, `[80,100)`.  The second window's
end offset is `40 + 60 = 100 =` total length, yet a third window is still
emitted: the loop does not stop as soon as an emitted window's end offset
equals the total length. -/
theorem windowing_not_stop_at_end_cex :
    sectionWindowsPos tsEx 90 50 =
      [tsEx.take 90, (tsEx.drop 40).take 90, (tsEx.drop 80).take 90] ∧
    tsEx.length = 100 ∧
    ((tsEx.drop 40).take 90).length = 60 ∧
    ((tsEx.drop 80).take 90).length = 20 :=
  ⟨by decide, by decide, by decide, by decide⟩

/-- C2 (amended): the loop emits a window for every start offset in
`range(0, total_length, budget - overlap)`; it stops when the next start
offset would lie at or beyond the end of the sequence, not when a window's
end offset first reaches it.  Consequently at least one window is emitted,
every start offset is below the total length, and the final window's end
offset equals the total length — but a non-final window's end may already
equal it. -/
theorem windowing_loop_bound (tokens : List Int) (b o : Nat) (ho : o < b)
    (hne : tokens ≠ []) :
    0 < (sectionWindowsPos tokens b o).length ∧
    ((windowStarts tokens.length (b - o)).all
        fun s => decide (s < tokens.length)) = true ∧
    tokens.length ≤ ((sectionWindowsPos tokens b o).length - 1) * (b - o) + b := by
  have hL : 0 < tokens.length := List.length_pos.mpr hne
  have hs : 0 < b - o := by omega
  refine ⟨?_, ?_, ?_⟩
  · rw [sectionWindowsPos_length, numWindows_eq _ _ hL hs]
    exact Nat.succ_pos _
  · rw [List.all_eq_true]
    intro s hsmem
    exact decide_eq_true (windowStarts_lt _ _ hL hs s hsmem)
  · rw [sectionWindowsPos_length]
    exact last_window_end _ _ b hL hs (by omega)

/-- Witness for C2's amended theorem on the 3-token sequence `[1, 2, 3]`
with budget 2 and overlap 1. -/
theorem windowing_loop_bound_witness :
    0 < (sectionWindowsPos [(1 : Int), 2, 3] 2 1).length ∧
    ((windowStarts ([(1 : Int), 2, 3]).length (2 - 1)).all
        fun s => decide (s < ([(1 : Int), 2, 3]).length)) = true ∧
    ([(1 : Int), 2, 3]).length ≤
      ((sectionWindowsPos [(1 : Int), 2, 3] 2 1).length - 1) * (2 - 1) + 2 :=
  windowing_loop_bound [1, 2, 3] 2 1 (by decide) (by decide)

/-- C3 (counterexample): with budget 50 and overlap 51 (`overlap > budget`)
on a non-empty token sequence, the loop raises no error at all: `range` with
a negative step is empty, so zero windows are silently emitted. -/
theorem overlap_ge_budget_cex :
    (50 : Int) ≤ (51 : Nat) ∧ sectionWindows [7] 50 51 = .ok [] :=
  ⟨by decide, rfl⟩

/-- C3 (amended): when `overlap ≥ budget` no `InvalidWindowConfigError`
exists.  If `overlap = budget` the zero `range` step raises a `ValueError`;
if `overlap > budget` the loop silently emits zero windows. -/
theorem overlap_ge_budget_behavior (tokens : List Int) (b : Int) (o : Nat)
    (h : b ≤ o) :
    sectionWindows tokens b o =
      if b = o then .error .zeroStep else .ok [] := by
  unfold sectionWindows
  by_cases heq : b - (o : Int) = 0
  · rw [if_pos heq, if_pos (by omega)]
  · rw [if_neg heq, if_pos (by omega), if_neg (by omega)]

/-- Witness for C3's amended theorem at budget 5, overlap 5. -/
theorem overlap_ge_budget_behavior_witness :
    sectionWindows [(7 : Int)] 5 5 =
      if (5 : Int) = (5 : Nat) then .error .zeroStep else .ok [] :=
  overlap_ge_budget_behavior [7] 5 5 (by decide)

/-- C4: for `overlap < budget`, whenever window `i+1` is emitted and holds at
least `overlap` tokens, the last `overlap` tokens of window `i` equal the
first `overlap` tokens of window `i+1`. -/
theorem window_overlap_agree (tokens : List Int) (b o i : Nat) (ho : o < b)
    (h1 : i < (sectionWindowsPos tokens b o).length)
    (h2 : i + 1 < (sectionWindowsPos tokens b o).length)
    (hlen : o ≤ ((sectionWindowsPos tokens b o).get ⟨i + 1, h2⟩).length) :
    ((sectionWindowsPos tokens b o).get ⟨i, h1⟩).drop
        (((sectionWindowsPos tokens b o).get ⟨i, h1⟩).length - o) =
      ((sectionWindowsPos tokens b o).get ⟨i + 1, h2⟩).take o := by
  have hs : 0 < b - o := by omega
  have hL : 0 < tokens.length := by
    by_contra hc
    have hz : tokens.length = 0 := by omega
    rw [sectionWindowsPos_length, hz, numWindows_zero _ hs] at h2
    omega
  have hn : i + 1 < numWindows tokens.length (b - o) := by
    rwa [sectionWindowsPos_length] at h2
  have hjL : (i + 1) * (b - o) < tokens.length := by
    apply windowStarts_lt _ _ hL hs
    exact List.mem_map_of_mem _ (List.mem_range.mpr hn)
  rw [sectionWindowsPos_get tokens b o i h1, sectionWindowsPos_get tokens b o (i + 1) h2]
  rw [sectionWindowsPos_get tokens b o (i + 1) h2] at hlen
  rw [List.length_take, List.length_drop] at hlen
  have hle : o ≤ tokens.length - (i + 1) * (b - o) :=
    le_trans hlen (Nat.min_le_right _ _)
  -- window i+1 holds ≥ o tokens, so window i is full-length:
  have hfull : i * (b - o) + b ≤ tokens.length := by
    have hsm : (i + 1) * (b - o) = i * (b - o) + (b - o) := Nat.succ_mul i (b - o)
    omega
  have hlenfull : ((tokens.drop (i * (b - o))).take b).length = b := by
    rw [List.length_take, List.length_drop]
    omega
  rw [hlenfull]
  rw [List.drop_take, List.drop_drop]
  have hbo : b - (b - o) = o := by omega
  have hij : i * (b - o) + (b - o) = (i + 1) * (b - o) := (Nat.succ_mul i (b - o)).symm
  rw [hbo, hij, List.take_take, Nat.min_eq_left (Nat.le_of_lt ho)]

/-- Witness for C4 on the 100-token sequence with budget 90, overlap 50:
windows 0 and 1 share their 50-token overlap region. -/
theorem window_overlap_agree_witness :
    ((sectionWindowsPos tsEx 90 50).get ⟨0, by decide⟩).drop
        (((sectionWindowsPos tsEx 90 50).get ⟨0, by decide⟩).length - 50) =
      ((sectionWindowsPos tsEx 90 50).get ⟨0 + 1, by decide⟩).take 50 :=
  window_overlap_agree tsEx 90 50 0 (by decide) (by decide) (by decide) (by decide)

/-- Every line kept by the bullet filter is fixed under `pyStrip`. -/
theorem bulletKept_strip_fix (t l : List Char)
    (hl : l ∈ ((splitOnChar '\n' t).map pyStrip).filter keepLine) :
    pyStrip l = l := by
  obtain ⟨x, _, hxl⟩ := List.mem_map.mp (List.mem_filter.mp hl).1
  rw [← hxl]
  exact edgeTrim_idem isPySpace x

/-- No line kept by the bullet filter contains a newline character. -/
theorem bulletKept_no_newline (t l : List Char)
    (hl : l ∈ ((splitOnChar '\n' t).map pyStrip).filter keepLine) :
    '\n' ∉ l := by
  intro hmem
  obtain ⟨x, hx, hxl⟩ := List.mem_map.mp (List.mem_filter.mp hl).1
  have hmx : '\n' ∈ x := mem_of_mem_edgeTrim isPySpace x '\n'
    (by rw [← hxl] at hmem; exact hmem)
  exact not_mem_of_mem_splitOnChar '\n' t x hx hmx

/-- Either the bullet filter's output is the empty string (which splits into
the single empty line), or splitting the output on newlines recovers exactly
the kept lines. -/
theorem bulletFilter_split (t : List Char) :
    (bulletFilter t = [] ∧ splitOnChar '\n' (bulletFilter t) = [[]]) ∨
      splitOnChar '\n' (bulletFilter t) =
        ((splitOnChar '\n' t).map pyStrip).filter keepLine := by
  by_cases h0 : ((splitOnChar '\n' t).map pyStrip).filter keepLine = []
  · left
    constructor
    · show joinNl (((splitOnChar '\n' t).map pyStrip).filter keepLine) = []
      rw [h0]
      rfl
    · show splitOnChar '\n' (joinNl (((splitOnChar '\n' t).map pyStrip).filter keepLine)) = _
      rw [h0]
      rfl
  · right
    show splitOnChar '\n' (joinNl (((splitOnChar '\n' t).map pyStrip).filter keepLine)) = _
    exact splitOnChar_joinNl _ h0 (bulletKept_no_newline t)

/-- C5: the bullet filter is idempotent — splitting its output into lines,
stripping each, keeping a line that starts with `-` or is non-empty, and
re-joining yields the output unchanged. -/
theorem bulletFilter_idempotent (t : List Char) :
    bulletFilter (bulletFilter t) = bulletFilter t := by
  rcases bulletFilter_split t with ⟨h1, _⟩ | h
  · rw [h1]
    rfl
  · show joinNl (((splitOnChar '\n' (bulletFilter t)).map pyStrip).filter keepLine) = _
    rw [h]
    rw [map_eq_self_of_mem pyStrip _ (bulletKept_strip_fix t)]
    rw [List.filter_eq_self.mpr fun l hl => (List.mem_filter.mp hl).2]
    rfl

/-- C9: the bullet filter rewrites every kept line to its whitespace-stripped
form: each line of the output is fixed under `pyStrip` (no leading
indentation or trailing whitespace survives), as the concrete nested-bullet
example shows. -/
theorem bulletFilter_strips_lines (t : List Char) :
    ((splitOnChar '\n' (bulletFilter t)).all fun l => pyStrip l == l) = true ∧
      bulletFilter "  - alpha  \n\t- beta ".data = "- alpha\n- beta".data := by
  constructor
  · rw [List.all_eq_true]
    intro l hl
    rw [beq_iff_eq]
    rcases bulletFilter_split t with ⟨_, h2⟩ | h
    · rw [h2] at hl
      have : l = [] := by simpa using hl
      rw [this]
      rfl
    · rw [h] at hl
      exact bulletKept_strip_fix t l hl
  · decide

/-- C6: the blank-edge trim yields a text that neither starts nor ends with a
newline, and trimming twice equals trimming once. -/
theorem trimNewlines_spec (t : List Char) :
    startsNl (trimNewlines t) = false ∧ endsNl (trimNewlines t) = false ∧
      trimNewlines (trimNewlines t) = trimNewlines t := by
  refine ⟨?_, ?_, edgeTrim_idem _ t⟩
  · cases h : trimNewlines t with
    | nil => rfl
    | cons c cs =>
      have hf := edgeTrim_head?_false (fun c => c == '\n') t c
        (by rw [show edgeTrim (fun c => c == '\n') t = trimNewlines t from rfl, h]; rfl)
      simpa [startsNl] using hf
  · show startsNl (trimNewlines t).reverse = false
    rw [show (trimNewlines t).reverse
        = (dropLead (fun c => c == '\n') t).reverse.dropWhile (fun c => c == '\n')
      from reverse_dropTrail _ _]
    cases h : (dropLead (fun c => c == '\n') t).reverse.dropWhile (fun c => c == '\n') with
    | nil => rfl
    | cons c cs =>
      have hf := head?_dropWhile_false (fun c => c == '\n')
        (dropLead (fun c => c == '\n') t).reverse c (by rw [h]; rfl)
      simpa [startsNl] using hf

/-- C7: with the summary stage the final document is the trimmed summary,
the literal `"\n\nNotes:\n"` separator, then the sorted notes; without it,
the sorted notes alone.  Instantiated on the spec's concrete example. -/
theorem assemble_spec :
    (∀ s n : List Char, assemble true s n = s ++ NOTES_SEP ++ n) ∧
    (∀ s n : List Char, assemble false s n = n) ∧
    assemble true
        (processSummaryPost "\n\nKey Takeaways:\n- A\n\nAction Items:\n- B\n\n".data)
        "Point A\nPoint B".data =
      "Key Takeaways:\n- A\n\nAction Items:\n- B\n\nNotes:\nPoint A\nPoint B".data :=
  ⟨fun _ _ => rfl, fun _ _ => rfl, by decide⟩

/-- C8: cleaning the example input removes the timestamp line, strips the
`<v ...>` and `</v>` tags, drops the blank lines and collapses whitespace,
yielding exactly `"Hello world"`. -/
theorem clean_input_text_example :
    clean_input_text "00:00:01.000 --> 00:00:02.000\nHello <v Alice>world</v>\n\n".data =
      "Hello world".data := by
  decide

/-- C10: if the jargon file contains any line that is empty after stripping
(e.g. a blank line between entries or a trailing blank line), splitting that
line on `','` yields one field instead of two, so `replace_jargon` raises
the malformed-format `ValueError`. -/
theorem replace_jargon_blank_line_error (content text : List Char)
    (h : ∃ line ∈ readlines content, pyStrip line = []) :
    replace_jargon content text = .error .malformed := by
  obtain ⟨line, hline, hstrip⟩ := h
  have hbad : ¬(((readlines content).map fun l => splitOnChar ',' (pyStrip l)).all
      fun p => p.length == 2) = true := by
    intro hall
    rw [List.all_eq_true] at hall
    have hmem : splitOnChar ',' (pyStrip line) ∈
        (readlines content).map fun l => splitOnChar ',' (pyStrip l) :=
      List.mem_map_of_mem _ hline
    have hfalse := hall _ hmem
    rw [hstrip] at hfalse
    exact absurd hfalse (by decide)
  simp only [replace_jargon]
  rw [if_neg hbad]

/-- Witness for C10: a jargon file `"a,b\n\n"` whose second line is blank. -/
theorem replace_jargon_blank_line_error_witness :
    replace_jargon "a,b\n\n".data "x".data = .error .malformed :=
  replace_jargon_blank_line_error _ _ ⟨"\n".data, by decide, by decide⟩

end Summarize
